import Mathlib

/-!
Verification of the scoring and greedy team-selection core of the
Pokemon team optimizer, shallowly embedded from the two Python source
files `poke.py` and `poke_ui.py`.

An `Entity` models one row of the filtered dataset: the columns the core
reads are `Name`, `Type 1`, `Type 2` (optional) and `Total`.  A pool is a
`List Entity` whose positions play the role of the reset row index
`0, 1, ...`; the working copy `remaining` of the greedy loop is the list
of still-available row indices in ascending order, and `pandas.drop`
becomes `List.erase`.  `df.loc[labels]` becomes `rowsOf`, selecting rows
by index in the given order.

`team_score` is the common Scorer of both files (they are textually the
same computation): sum of the `Total` column plus `type_bonus` times the
number of distinct strings in `Type 1` united with the non-null entries
of `Type 2`.

The inner `for idx, row in remaining.iterrows()` loop of both greedy
implementations is `bestLoop`: it threads the running best pair
`(best_idx, best_score)` through the candidates, starting from `none`
(the Python `best_idx = None`, `best_score = -inf`; since every real
score is a finite integer, the first candidate always replaces the
initial state, which the `none` accumulator models exactly), replacing
the best only on strictly greater score.

The two outer loops differ:
* `greedy_loopP` (`poke.py`): `while len(chosen_idx) < k` with no guard;
  when `remaining` is exhausted, the Python code appends `best_idx = None`
  and calls `remaining.drop(None)`, which raises.  The model returns
  `Except.error ()` there.
* `greedy_loopUi` (`poke_ui.py`): the loop also tests
  `not remaining.empty` and breaks when `best_idx is None`, so it always
  returns the chosen list.
The integer `k` of the Python signature is modelled as `Int`; the loop
condition `len(chosen) < k` runs the body `k.toNat` times.
-/

structure Entity where
  pname : String
  type1 : String
  type2 : Option String
  total : Int
  deriving Repr, DecidableEq

/-- The set of type strings present in a team, as in both sources:
`set(team["Type 1"]) | set(team["Type 2"].dropna())`. -/
def typesOf (team : List Entity) : Finset String :=
  (team.map Entity.type1).toFinset ∪ (team.filterMap Entity.type2).toFinset

/-- Scorer of both files: `team["Total"].sum() + type_bonus * len(types)`. -/
def team_score (team : List Entity) (type_bonus : Int) : Int :=
  (team.map Entity.total).sum + type_bonus * (typesOf team).card

/-- `df.loc[idxs]`: the rows of `pool` selected by the labels `idxs`,
in the order the labels are listed. -/
def rowsOf (pool : List Entity) (idxs : List Nat) : List Entity :=
  idxs.filterMap fun i => pool.get? i

/-- The `candidate_score` of one candidate row `idx` given the already
chosen labels: `team_score(df.loc[chosen_idx + [idx]], type_bonus)`. -/
def candScore (pool : List Entity) (type_bonus : Int) (chosen : List Nat)
    (idx : Nat) : Int :=
  team_score (rowsOf pool (chosen ++ [idx])) type_bonus

/-- The inner candidate-evaluation loop of both greedy implementations.
The accumulator is `some (best_idx, best_score)`, or `none` for the
initial `best_idx = None` / `best_score = -inf` state; the update keeps
the incumbent unless the new score is strictly greater. -/
def bestLoop (pool : List Entity) (type_bonus : Int) (chosen : List Nat) :
    Option (Nat × Int) → List Nat → Option (Nat × Int)
  | best, [] => best
  | best, idx :: rest =>
    match best with
    | none =>
      bestLoop pool type_bonus chosen
        (some (idx, candScore pool type_bonus chosen idx)) rest
    | some (bi, bs) =>
      if bs < candScore pool type_bonus chosen idx then
        bestLoop pool type_bonus chosen
          (some (idx, candScore pool type_bonus chosen idx)) rest
      else
        bestLoop pool type_bonus chosen (some (bi, bs)) rest

/-- Outer loop of `poke.py`: `while len(chosen_idx) < k` with no
emptiness guard.  With the pool exhausted, `best_idx` stays `None` and
`remaining.drop(None)` raises, modelled by `Except.error ()`. -/
def greedy_loopP (pool : List Entity) (type_bonus : Int) :
    Nat → List Nat → List Nat → Except Unit (List Nat)
  | 0, chosen, _ => Except.ok chosen
  | b + 1, chosen, remaining =>
    match bestLoop pool type_bonus chosen none remaining with
    | none => Except.error ()
    | some (i, _) =>
      greedy_loopP pool type_bonus b (chosen ++ [i]) (remaining.erase i)

/-- `greedy_team` of `poke.py`: starts from no chosen labels and the full
index range, and returns `df.loc[chosen_idx]` on success. -/
def greedy_teamP (pool : List Entity) (k : Int) (type_bonus : Int) :
    Except Unit (List Entity) :=
  (greedy_loopP pool type_bonus k.toNat [] (List.range pool.length)).map
    (rowsOf pool)

/-- Outer loop of `poke_ui.py`: `while len(chosen_idx) < k and not
remaining.empty`, with `if best_idx is None: break`. -/
def greedy_loopUi (pool : List Entity) (type_bonus : Int) :
    Nat → List Nat → List Nat → List Nat
  | 0, chosen, _ => chosen
  | b + 1, chosen, remaining =>
    if remaining.isEmpty then chosen
    else
      match bestLoop pool type_bonus chosen none remaining with
      | none => chosen
      | some (i, _) =>
        greedy_loopUi pool type_bonus b (chosen ++ [i]) (remaining.erase i)

/-- The chosen row labels of `greedy_team` in `poke_ui.py`. -/
def greedy_idxUi (pool : List Entity) (k : Int) (type_bonus : Int) :
    List Nat :=
  greedy_loopUi pool type_bonus k.toNat [] (List.range pool.length)

/-- `greedy_team` of `poke_ui.py`: returns `df.loc[chosen_idx]`. -/
def greedy_teamUi (pool : List Entity) (k : Int) (type_bonus : Int) :
    List Entity :=
  rowsOf pool (greedy_idxUi pool k type_bonus)

/-- The three entities of the concrete scenario of the specification. -/
def entA : Entity := ⟨"A", "Fire", none, 300⟩

/-- Entity B of the concrete scenario. -/
def entB : Entity := ⟨"B", "Water", none, 250⟩

/-- Entity C of the concrete scenario. -/
def entC : Entity := ⟨"C", "Fire", some "Flying", 400⟩

/-- The concrete three-entity pool of the specification. -/
def poolABC : List Entity := [entA, entB, entC]

/-- Ghost instrumentation of the `poke_ui.py` loop: identical control
flow to `greedy_loopUi`, additionally carrying the `best_score` value of
the most recent iteration, so that the recorded candidate score of the
last-appended entity is available to reason about. -/
def greedy_loopTr (pool : List Entity) (type_bonus : Int) :
    Nat → List Nat → List Nat → Int → List Nat × Int
  | 0, chosen, _, last => (chosen, last)
  | b + 1, chosen, remaining, last =>
    if remaining.isEmpty then (chosen, last)
    else
      match bestLoop pool type_bonus chosen none remaining with
      | none => (chosen, last)
      | some (i, s) =>
        greedy_loopTr pool type_bonus b (chosen ++ [i]) (remaining.erase i) s

/-- The set of distinct categories of a team, written out from the words
of the specification: the union over the team of each primary category
together with the secondary category when it is present; an absent
secondary category contributes nothing. -/
def spec_categories : List Entity → Finset String
  | [] => ∅
  | e :: rest =>
    insert e.type1
      (match e.type2 with
       | some c => insert c (spec_categories rest)
       | none => spec_categories rest)

/-- The fitness value stored at row index `j` of the pool (`0` for an
out-of-range index, which never occurs for indices drawn from the
range of the pool). -/
def tTot (pool : List Entity) (j : Nat) : Int :=
  ((pool.get? j).map Entity.total).getD 0

/-- Row `i` strictly precedes row `j` in the pure-fitness ranking:
either its fitness is strictly greater, or the fitness values are equal
and `i` comes first in the dataset order. -/
def fitOrd (pool : List Entity) (i j : Nat) : Prop :=
  tTot pool j < tTot pool i ∨ (tTot pool i = tTot pool j ∧ i < j)

/-- One unfolding step of `bestLoop` on a `none` accumulator. -/
lemma bestLoop_none_cons (pool : List Entity) (tb : Int) (chosen : List Nat)
    (x : Nat) (xs : List Nat) :
    bestLoop pool tb chosen none (x :: xs) =
      bestLoop pool tb chosen (some (x, candScore pool tb chosen x)) xs := rfl

/-- One unfolding step of `bestLoop` on a `some` accumulator. -/
lemma bestLoop_some_cons (pool : List Entity) (tb : Int) (chosen : List Nat)
    (bi : Nat) (bs : Int) (x : Nat) (xs : List Nat) :
    bestLoop pool tb chosen (some (bi, bs)) (x :: xs) =
      if bs < candScore pool tb chosen x then
        bestLoop pool tb chosen (some (x, candScore pool tb chosen x)) xs
      else bestLoop pool tb chosen (some (bi, bs)) xs := rfl

/-- Started from a `some` accumulator, `bestLoop` returns `some`. -/
lemma bestLoop_acc_some (pool : List Entity) (tb : Int) (chosen : List Nat) :
    ∀ (r : List Nat) (p : Nat × Int),
      ∃ q, bestLoop pool tb chosen (some p) r = some q := by
  intro r
  induction r with
  | nil => exact fun p => ⟨p, rfl⟩
  | cons x xs ih =>
    rintro ⟨bi, bs⟩
    rw [bestLoop_some_cons]
    by_cases hx : bs < candScore pool tb chosen x
    · simpa [hx] using ih (x, candScore pool tb chosen x)
    · simpa [hx] using ih (bi, bs)

/-- On a nonempty candidate list, `bestLoop` finds some best pair. -/
lemma bestLoop_cons_some (pool : List Entity) (tb : Int) (chosen : List Nat)
    (x : Nat) (xs : List Nat) :
    ∃ i s, bestLoop pool tb chosen none (x :: xs) = some (i, s) := by
  obtain ⟨⟨i, s⟩, hq⟩ :=
    bestLoop_acc_some pool tb chosen xs (x, candScore pool tb chosen x)
  exact ⟨i, s, by rw [bestLoop_none_cons]; exact hq⟩

/-- Characterization of `bestLoop` from a `some` accumulator: either the
incumbent survives and every candidate scores at most the incumbent, or
the winner is the first candidate of a strictly better score, every
earlier candidate scoring strictly below it and every later one at most
it. -/
lemma bestLoop_acc_spec (pool : List Entity) (tb : Int) (chosen : List Nat) :
    ∀ (r : List Nat) (bi ci : Nat) (bs cs : Int),
      bestLoop pool tb chosen (some (bi, bs)) r = some (ci, cs) →
      (ci = bi ∧ cs = bs ∧ ∀ j ∈ r, candScore pool tb chosen j ≤ bs) ∨
      (∃ l₁ l₂, r = l₁ ++ ci :: l₂ ∧ cs = candScore pool tb chosen ci ∧
        bs < cs ∧ (∀ j ∈ l₁, candScore pool tb chosen j < cs) ∧
        (∀ j ∈ l₂, candScore pool tb chosen j ≤ cs)) := by
  intro r
  induction r with
  | nil =>
    intro bi ci bs cs h
    simp only [bestLoop, Option.some.injEq, Prod.mk.injEq] at h
    exact Or.inl ⟨h.1.symm, h.2.symm, by simp⟩
  | cons x xs ih =>
    intro bi ci bs cs h
    rw [bestLoop_some_cons] at h
    by_cases hx : bs < candScore pool tb chosen x
    · rw [if_pos hx] at h
      rcases ih x ci (candScore pool tb chosen x) cs h with
        ⟨hci, hcs, hall⟩ | ⟨l₁, l₂, hxs, hcs, hlt, hl1, hl2⟩
      · subst hci
        refine Or.inr ⟨[], xs, by simp, hcs.symm ▸ rfl, ?_, by simp, ?_⟩
        · exact hcs ▸ hx
        · intro j hj
          exact hcs ▸ hall j hj
      · refine Or.inr ⟨x :: l₁, l₂, by rw [hxs]; rfl, hcs, lt_trans hx hlt, ?_, hl2⟩
        intro j hj
        rcases List.mem_cons.mp hj with hj | hj
        · exact hj ▸ hlt
        · exact hl1 j hj
    · rw [if_neg hx] at h
      have hxle : candScore pool tb chosen x ≤ bs := le_of_not_lt hx
      rcases ih bi ci bs cs h with
        ⟨hci, hcs, hall⟩ | ⟨l₁, l₂, hxs, hcs, hlt, hl1, hl2⟩
      · refine Or.inl ⟨hci, hcs, ?_⟩
        intro j hj
        rcases List.mem_cons.mp hj with hj | hj
        · exact hj ▸ hxle
        · exact hall j hj
      · refine Or.inr ⟨x :: l₁, l₂, by rw [hxs]; rfl, hcs, hlt, ?_, hl2⟩
        intro j hj
        rcases List.mem_cons.mp hj with hj | hj
        · exact hj ▸ lt_of_le_of_lt hxle hlt
        · exact hl1 j hj

/-- Full specification of the inner loop started from the initial
`best_idx = None` state: the winner is a member whose score it records,
no candidate scores strictly more, and every candidate listed before the
winner scores strictly less (the first-wins tie-break). -/
lemma bestLoop_spec (pool : List Entity) (tb : Int) (chosen : List Nat)
    (r : List Nat) (i : Nat) (s : Int)
    (h : bestLoop pool tb chosen none r = some (i, s)) :
    i ∈ r ∧ s = candScore pool tb chosen i ∧
    (∀ j ∈ r, candScore pool tb chosen j ≤ s) ∧
    ∃ l₁ l₂, r = l₁ ++ i :: l₂ ∧
      ∀ j ∈ l₁, candScore pool tb chosen j < s := by
  cases r with
  | nil => simp [bestLoop] at h
  | cons x xs =>
    rw [bestLoop_none_cons] at h
    rcases bestLoop_acc_spec pool tb chosen xs x i (candScore pool tb chosen x) s h with
      ⟨hix, hs, hall⟩ | ⟨l₁, l₂, hxs, hcs, hlt, hl1, hl2⟩
    · subst hix
      refine ⟨List.mem_cons_self _ _, hs, ?_, [], xs, rfl, by simp⟩
      intro j hj
      rcases List.mem_cons.mp hj with hj | hj
      · exact hj ▸ le_of_eq hs.symm
      · exact hs ▸ hall j hj
    · refine ⟨?_, hcs, ?_, x :: l₁, l₂, by rw [hxs]; rfl, ?_⟩
      · exact List.mem_cons_of_mem _ (hxs ▸ List.mem_append_right l₁ (List.mem_cons_self _ _))
      · intro j hj
        rcases List.mem_cons.mp hj with hj | hj
        · exact hj ▸ le_of_lt hlt
        · rw [hxs] at hj
          rcases List.mem_append.mp hj with hj | hj
          · exact le_of_lt (hl1 j hj)
          · rcases List.mem_cons.mp hj with hj | hj
            · exact hj ▸ le_of_eq hcs.symm
            · exact hl2 j hj
      · intro j hj
        rcases List.mem_cons.mp hj with hj | hj
        · exact hj ▸ hlt
        · exact hl1 j hj
/-- The chosen list of the `poke_ui.py` loop reaches length
`min budget |remaining|` on top of what was already chosen. -/
lemma greedy_loopUi_length (pool : List Entity) (tb : Int) :
    ∀ (b : Nat) (chosen r : List Nat),
      (greedy_loopUi pool tb b chosen r).length =
        chosen.length + min b r.length := by
  intro b
  induction b with
  | zero => intro chosen r; simp [greedy_loopUi]
  | succ b ih =>
    intro chosen r
    cases r with
    | nil => simp [greedy_loopUi]
    | cons x xs =>
      obtain ⟨i, s, hbest⟩ := bestLoop_cons_some pool tb chosen x xs
      have hmem : i ∈ x :: xs := (bestLoop_spec pool tb chosen _ i s hbest).1
      have hunfold : greedy_loopUi pool tb (b + 1) chosen (x :: xs) =
          greedy_loopUi pool tb b (chosen ++ [i]) ((x :: xs).erase i) := by
        simp [greedy_loopUi, hbest]
      rw [hunfold, ih]
      have hlen : ((x :: xs).erase i).length = xs.length := by
        rw [List.length_erase_of_mem hmem]
        rfl
      rw [hlen]
      simp only [List.length_append, List.length_cons, List.length_nil]
      omega

/-- Whenever the `poke.py` loop returns successfully, the `poke_ui.py`
loop returns the same chosen list. -/
lemma greedy_loopP_ok_eq_ui (pool : List Entity) (tb : Int) :
    ∀ (b : Nat) (chosen r out : List Nat),
      greedy_loopP pool tb b chosen r = Except.ok out →
      greedy_loopUi pool tb b chosen r = out := by
  intro b
  induction b with
  | zero =>
    intro chosen r out h
    simpa [greedy_loopP, greedy_loopUi] using h
  | succ b ih =>
    intro chosen r out h
    cases r with
    | nil => simp [greedy_loopP, bestLoop] at h
    | cons x xs =>
      obtain ⟨i, s, hbest⟩ := bestLoop_cons_some pool tb chosen x xs
      have hui : greedy_loopUi pool tb (b + 1) chosen (x :: xs) =
          greedy_loopUi pool tb b (chosen ++ [i]) ((x :: xs).erase i) := by
        simp [greedy_loopUi, hbest]
      rw [hui]
      apply ih
      simpa [greedy_loopP, hbest] using h

/-- While the budget does not exceed the pool still available, the
`poke.py` loop cannot fail, and agrees with the `poke_ui.py` loop. -/
lemma greedy_loopP_eq_ok (pool : List Entity) (tb : Int) :
    ∀ (b : Nat) (chosen r : List Nat), b ≤ r.length →
      greedy_loopP pool tb b chosen r =
        Except.ok (greedy_loopUi pool tb b chosen r) := by
  intro b
  induction b with
  | zero => intro chosen r _; simp [greedy_loopP, greedy_loopUi]
  | succ b ih =>
    intro chosen r hb
    cases r with
    | nil => simp at hb
    | cons x xs =>
      obtain ⟨i, s, hbest⟩ := bestLoop_cons_some pool tb chosen x xs
      have hmem : i ∈ x :: xs := (bestLoop_spec pool tb chosen _ i s hbest).1
      have hlen : ((x :: xs).erase i).length = xs.length := by
        rw [List.length_erase_of_mem hmem]
        rfl
      have hb2 : b ≤ ((x :: xs).erase i).length := by
        rw [hlen]
        simp only [List.length_cons] at hb
        omega
      simp only [greedy_loopP, greedy_loopUi, hbest, List.isEmpty_cons,
        Bool.false_eq_true, if_false]
      exact ih _ _ hb2

/-- The instrumented loop computes the same chosen list as the
`poke_ui.py` loop. -/
lemma greedy_loopTr_fst (pool : List Entity) (tb : Int) :
    ∀ (b : Nat) (chosen r : List Nat) (last : Int),
      (greedy_loopTr pool tb b chosen r last).1 =
        greedy_loopUi pool tb b chosen r := by
  intro b
  induction b with
  | zero => intro chosen r last; rfl
  | succ b ih =>
    intro chosen r last
    cases r with
    | nil => rfl
    | cons x xs =>
      obtain ⟨i, s, hbest⟩ := bestLoop_cons_some pool tb chosen x xs
      simp [greedy_loopTr, greedy_loopUi, hbest, ih]

/-- Invariant of the instrumented loop: if the recorded score matches
the score of the chosen rows, it still does when the loop finishes.  The
recorded value is exactly the `best_score` of the final executed
iteration, i.e. the candidate score of the last-appended row. -/
lemma greedy_loopTr_score (pool : List Entity) (tb : Int) :
    ∀ (b : Nat) (chosen r : List Nat) (last : Int),
      team_score (rowsOf pool chosen) tb = last →
      team_score (rowsOf pool (greedy_loopTr pool tb b chosen r last).1) tb =
        (greedy_loopTr pool tb b chosen r last).2 := by
  intro b
  induction b with
  | zero => intro chosen r last h; exact h
  | succ b ih =>
    intro chosen r last h
    cases r with
    | nil => exact h
    | cons x xs =>
      obtain ⟨i, s, hbest⟩ := bestLoop_cons_some pool tb chosen x xs
      have hs : s = candScore pool tb chosen i :=
        (bestLoop_spec pool tb chosen _ i s hbest).2.1
      have hunfold : greedy_loopTr pool tb (b + 1) chosen (x :: xs) last =
          greedy_loopTr pool tb b (chosen ++ [i]) ((x :: xs).erase i) s := by
        simp [greedy_loopTr, hbest]
      rw [hunfold]
      exact ih _ _ _ (by rw [hs]; rfl)

/-- Selecting rows of a concatenation of label lists concatenates. -/
lemma rowsOf_append (pool : List Entity) (a b : List Nat) :
    rowsOf pool (a ++ b) = rowsOf pool a ++ rowsOf pool b := by
  simp [rowsOf]

/-- With a zero bonus the score is the fitness sum alone. -/
lemma team_score_zero (t : List Entity) :
    team_score t 0 = (t.map Entity.total).sum := by
  simp [team_score]

/-- With a zero bonus a candidate score is the fixed sum over the
already-chosen rows plus the fitness of the candidate row. -/
lemma candScore_zero (pool : List Entity) (chosen : List Nat) (j : Nat) :
    candScore pool 0 chosen j =
      ((rowsOf pool chosen).map Entity.total).sum + tTot pool j := by
  unfold candScore
  rw [team_score_zero, rowsOf_append]
  cases hg : pool[j]? <;>
    simp [rowsOf, List.filterMap_cons, hg, tTot]

/-- With `type_bonus = 0`, the `poke_ui.py` loop appends, on top of an
arbitrary prefix, the top-`min budget |remaining|` rows of `remaining`
(assumed listed in ascending index order) ranked by descending fitness
with ties broken by ascending index. -/
lemma greedy_zero_topk (pool : List Entity) :
    ∀ (b : Nat) (chosen r : List Nat), r.Pairwise (· < ·) →
      ∃ out, greedy_loopUi pool 0 b chosen r = chosen ++ out ∧
        out.length = min b r.length ∧
        (∀ i ∈ out, i ∈ r) ∧
        out.Pairwise (fitOrd pool) ∧
        (∀ j ∈ r, j ∉ out → ∀ i ∈ out, fitOrd pool i j) := by
  intro b
  induction b with
  | zero =>
    intro chosen r _
    refine ⟨[], by simp [greedy_loopUi], by simp, by simp, by simp, by simp⟩
  | succ b ih =>
    intro chosen r hr
    cases r with
    | nil =>
      refine ⟨[], by simp [greedy_loopUi], by simp, by simp, by simp, by simp⟩
    | cons x xs =>
      obtain ⟨i, s, hbest⟩ := bestLoop_cons_some pool 0 chosen x xs
      obtain ⟨hmem, hs, hmax, l₁, l₂, hsplit, hfirst⟩ :=
        bestLoop_spec pool 0 chosen _ i s hbest
      have hkey : ∀ j ∈ x :: xs, j ≠ i → fitOrd pool i j := by
        intro j hj hne
        have hle : tTot pool j ≤ tTot pool i := by
          have hj2 := hmax j hj
          rw [hs, candScore_zero, candScore_zero] at hj2
          omega
        rcases lt_or_eq_of_le hle with hlt | heq
        · exact Or.inl hlt
        · refine Or.inr ⟨heq.symm, ?_⟩
          have hjl2 : j ∈ l₂ := by
            rw [hsplit] at hj
            rcases List.mem_append.mp hj with hj1 | hj2
            · exfalso
              have hlt2 := hfirst j hj1
              rw [hs, candScore_zero, candScore_zero] at hlt2
              omega
            · rcases List.mem_cons.mp hj2 with h | h
              · exact absurd h hne
              · exact h
          have hpair : (l₁ ++ i :: l₂).Pairwise (fun a b : Nat => a < b) :=
            hsplit ▸ hr
          have hcons := (List.pairwise_append.mp hpair).2.1
          exact (List.pairwise_cons.mp hcons).1 j hjl2
      have hnodup : (x :: xs).Nodup := hr.imp fun h => Nat.ne_of_lt h
      have hsub : ((x :: xs).erase i).Sublist (x :: xs) :=
        List.erase_sublist i (x :: xs)
      have hr2 : ((x :: xs).erase i).Pairwise (fun a b : Nat => a < b) :=
        hr.sublist hsub
      obtain ⟨out, hout, hlen, hmem2, hpw, hdom⟩ :=
        ih (chosen ++ [i]) ((x :: xs).erase i) hr2
      refine ⟨i :: out, ?_, ?_, ?_, ?_, ?_⟩
      · have hunfold : greedy_loopUi pool 0 (b + 1) chosen (x :: xs) =
            greedy_loopUi pool 0 b (chosen ++ [i]) ((x :: xs).erase i) := by
          simp [greedy_loopUi, hbest]
        rw [hunfold, hout, List.append_assoc]
        rfl
      · have hlen2 : ((x :: xs).erase i).length = xs.length := by
          rw [List.length_erase_of_mem hmem]
          rfl
        rw [List.length_cons, hlen, hlen2]
        simp only [List.length_cons]
        omega
      · intro a ha
        rcases List.mem_cons.mp ha with h | h
        · exact h ▸ hmem
        · exact hsub.subset (hmem2 a h)
      · refine List.pairwise_cons.mpr ⟨?_, hpw⟩
        intro a ha
        have hair : a ∈ (x :: xs).erase i := hmem2 a ha
        have hane : a ≠ i := by
          intro hcontr
          rw [hcontr] at hair
          exact (hnodup.mem_erase_iff.mp hair).1 rfl
        exact hkey a (hsub.subset hair) hane
      · intro j hj hjout a ha
        have hji : j ≠ i := fun hc => hjout (hc ▸ List.mem_cons_self _ _)
        rcases List.mem_cons.mp ha with h | h
        · subst h
          exact hkey j hj hji
        · have hjer : j ∈ (x :: xs).erase i := (List.mem_erase_of_ne hji).mpr hj
          exact hdom j hjer (fun hc => hjout (List.mem_cons_of_mem _ hc)) a h

/-- Every label in the output of the `poke_ui.py` loop was already
chosen or comes from the remaining pool. -/
lemma greedy_loopUi_mem (pool : List Entity) (tb : Int) :
    ∀ (b : Nat) (chosen r : List Nat),
      ∀ a ∈ greedy_loopUi pool tb b chosen r, a ∈ chosen ∨ a ∈ r := by
  intro b
  induction b with
  | zero => intro chosen r a ha; exact Or.inl ha
  | succ b ih =>
    intro chosen r a ha
    cases r with
    | nil => exact Or.inl ha
    | cons x xs =>
      obtain ⟨i, s, hbest⟩ := bestLoop_cons_some pool tb chosen x xs
      have hmem : i ∈ x :: xs := (bestLoop_spec pool tb chosen _ i s hbest).1
      have hunfold : greedy_loopUi pool tb (b + 1) chosen (x :: xs) =
          greedy_loopUi pool tb b (chosen ++ [i]) ((x :: xs).erase i) := by
        simp [greedy_loopUi, hbest]
      rw [hunfold] at ha
      rcases ih (chosen ++ [i]) ((x :: xs).erase i) a ha with h | h
      · rcases List.mem_append.mp h with h | h
        · exact Or.inl h
        · rcases List.mem_cons.mp h with h | h
          · exact Or.inr (h ▸ hmem)
          · simp at h
      · exact Or.inr (List.erase_sublist i (x :: xs) |>.subset h)

/-- When every label is a valid row index, `df.loc` keeps the length. -/
lemma rowsOf_length (pool : List Entity) :
    ∀ idxs : List Nat, (∀ a ∈ idxs, a < pool.length) →
      (rowsOf pool idxs).length = idxs.length := by
  intro idxs
  induction idxs with
  | nil => intro _; rfl
  | cons x xs ih =>
    intro h
    have hx : x < pool.length := h x (List.mem_cons_self _ _)
    simp only [rowsOf, List.filterMap_cons, List.get?_eq_getElem?,
      List.getElem?_eq_getElem hx]
    rw [List.length_cons, List.length_cons]
    have := ih fun a ha => h a (List.mem_cons_of_mem _ ha)
    simpa [rowsOf] using this

/-- The category set written from the specification wording agrees with
the category set computed by the sources. -/
lemma spec_categories_eq (t : List Entity) :
    spec_categories t = typesOf t := by
  induction t with
  | nil => simp [spec_categories, typesOf]
  | cons e rest ih =>
    ext a
    cases h2 : e.type2 with
    | none =>
      simp only [spec_categories, h2, ih, typesOf, List.map_cons,
        List.toFinset_cons, List.filterMap_cons, Finset.mem_union,
        Finset.mem_insert, List.mem_toFinset]
      tauto
    | some c =>
      simp only [spec_categories, h2, ih, typesOf, List.map_cons,
        List.toFinset_cons, List.filterMap_cons, Finset.mem_union,
        Finset.mem_insert, List.mem_toFinset]
      tauto

/-- Adding an entity can only enlarge the category set. -/
lemma typesOf_cons_subset (e : Entity) (t : List Entity) :
    typesOf t ⊆ typesOf (e :: t) := by
  intro a ha
  simp only [typesOf, Finset.mem_union, List.mem_toFinset, List.mem_map,
    List.mem_filterMap] at ha ⊢
  rcases ha with ⟨x, hx, hxa⟩ | ⟨x, hx, hxa⟩
  · exact Or.inl ⟨x, List.mem_cons_of_mem _ hx, hxa⟩
  · exact Or.inr ⟨x, List.mem_cons_of_mem _ hx, hxa⟩

/-- Permutations of a list have the same `toFinset`. -/
lemma perm_toFinset {l₁ l₂ : List String} (h : l₁.Perm l₂) :
    l₁.toFinset = l₂.toFinset := by
  ext a
  simp [List.mem_toFinset, h.mem_iff]

/-- Claim C1: the `poke_ui.py` selector does return a Team of length
exactly `min(k, |pool|)` for every pool and every integer `k` (negative
`k` behaving as `0`), but the claim fails on `poke.py`: when `k` exceeds
the pool size its loop appends `best_idx = None` and calls
`remaining.drop(None)`, which raises (modelled `Except.error ()`), here
evaluated on the empty pool with `k = 1`. -/
theorem size_contract_ui_and_poke_failure :
    (∀ (pool : List Entity) (k tb : Int),
      (greedy_teamUi pool k tb).length = min k.toNat pool.length) ∧
    greedy_teamP [] 1 20 = Except.error () := by
  constructor
  · intro pool k tb
    have hvalid : ∀ a ∈ greedy_idxUi pool k tb, a < pool.length := by
      intro a ha
      rcases greedy_loopUi_mem pool tb k.toNat [] (List.range pool.length)
          a ha with h | h
      · simp at h
      · exact List.mem_range.mp h
    rw [greedy_teamUi, rowsOf_length pool _ hvalid, greedy_idxUi,
      greedy_loopUi_length]
    simp
  · rfl

/-- Claim C2: graceful degradation holds for `poke_ui.py` (with `k`
exceeding the pool size it returns the whole pool, and on the empty pool
it returns the empty Team), but `poke.py` raises on both inputs instead
of degrading, evaluated here on the three-entity pool with `k = 10` and
on the empty pool with `k = 5`. -/
theorem graceful_degradation_poke_failure :
    greedy_teamP poolABC 10 20 = Except.error () ∧
    greedy_teamP [] 5 20 = Except.error () ∧
    greedy_teamUi poolABC 10 20 = [entC, entA, entB] ∧
    greedy_teamUi [] 5 20 = [] :=
  ⟨rfl, rfl, by decide, by decide⟩

/-- Claim C3: for every subset and every bonus, the Scorer of the
sources equals the fitness sum plus the bonus times the number of
distinct categories as described by the specification wording
(`spec_categories`), absent secondary categories contributing nothing. -/
theorem score_formula_spec (team : List Entity) (tb : Int) :
    team_score team tb =
      (team.map Entity.total).sum + tb * (spec_categories team).card := by
  rw [team_score, spec_categories_eq]

/-- Claim C4: on the concrete scenario pool with `k = 2` and
`type_bonus = 20`, both implementations return the ordered Team
`[C, A]`, whose score is `740`. -/
theorem concrete_scenario_CA_740 :
    greedy_teamP poolABC 2 20 = Except.ok [entC, entA] ∧
    greedy_teamUi poolABC 2 20 = [entC, entA] ∧
    team_score [entC, entA] 20 = 740 :=
  ⟨rfl, by decide, by decide⟩

/-- Whenever `poke.py` returns a Team, it is the `poke_ui.py` Team. -/
lemma greedy_teamP_ok_eq (pool : List Entity) (k tb : Int) :
    ∀ t, greedy_teamP pool k tb = Except.ok t → t = greedy_teamUi pool k tb := by
  intro t ht
  rw [greedy_teamP] at ht
  cases hlp : greedy_loopP pool tb k.toNat [] (List.range pool.length) with
  | error e => rw [hlp] at ht; simp [Except.map] at ht
  | ok out =>
    rw [hlp] at ht
    simp only [Except.map, Except.ok.injEq] at ht
    rw [← ht, greedy_teamUi, greedy_idxUi,
      greedy_loopP_ok_eq_ui pool tb _ _ _ _ hlp]

/-- Claim C5: the row appended at any iteration is one of greatest
candidate score among the remaining rows; when several remaining rows
attain that greatest score, the first one in enumeration order wins; and
appending that row and dropping it from the pool is exactly the step
both greedy loops take. -/
theorem greedy_step_argmax_first_wins
    (pool : List Entity) (tb : Int) (chosen r : List Nat) (i : Nat) (s : Int)
    (b : Nat) (h : bestLoop pool tb chosen none r = some (i, s)) :
    i ∈ r ∧ s = candScore pool tb chosen i ∧
    (∀ j ∈ r, candScore pool tb chosen j ≤ s) ∧
    (∃ l₁ l₂, r = l₁ ++ i :: l₂ ∧
      ∀ j ∈ l₁, candScore pool tb chosen j < s) ∧
    greedy_loopP pool tb (b + 1) chosen r =
      greedy_loopP pool tb b (chosen ++ [i]) (r.erase i) ∧
    greedy_loopUi pool tb (b + 1) chosen r =
      greedy_loopUi pool tb b (chosen ++ [i]) (r.erase i) := by
  obtain ⟨h1, h2, h3, h4⟩ := bestLoop_spec pool tb chosen r i s h
  refine ⟨h1, h2, h3, h4, ?_, ?_⟩
  · simp [greedy_loopP, h]
  · cases r with
    | nil => simp [bestLoop] at h
    | cons x xs => simp [greedy_loopUi, h]

/-- Witness for claim C5 at the concrete scenario: with nothing chosen
yet, row 2 (entity C, score 440) is selected first. -/
theorem greedy_step_argmax_first_wins_witness :
    bestLoop poolABC 20 [] none [0, 1, 2] = some (2, 440) ∧
    (2 ∈ [0, 1, 2] ∧ (440 : Int) = candScore poolABC 20 [] 2 ∧
      (∀ j ∈ [0, 1, 2], candScore poolABC 20 [] j ≤ 440) ∧
      (∃ l₁ l₂, [0, 1, 2] = l₁ ++ 2 :: l₂ ∧
        ∀ j ∈ l₁, candScore poolABC 20 [] j < 440) ∧
      greedy_loopP poolABC 20 1 [] [0, 1, 2] =
        greedy_loopP poolABC 20 0 ([] ++ [2]) ([0, 1, 2].erase 2) ∧
      greedy_loopUi poolABC 20 1 [] [0, 1, 2] =
        greedy_loopUi poolABC 20 0 ([] ++ [2]) ([0, 1, 2].erase 2)) :=
  ⟨by decide,
    greedy_step_argmax_first_wins poolABC 20 [] [0, 1, 2] 2 440 0 (by decide)⟩

/-- Claim C6: with non-negative fitness values and a non-negative bonus,
adding an entity to a subset never decreases the score. -/
theorem score_monotone_add (team : List Entity) (e : Entity) (tb : Int)
    (h1 : ∀ x ∈ team, 0 ≤ x.total) (h2 : 0 ≤ e.total) (h3 : 0 ≤ tb) :
    team_score team tb ≤ team_score (e :: team) tb := by
  have hcard : ((typesOf team).card : Int) ≤ ((typesOf (e :: team)).card : Int) := by
    exact_mod_cast Finset.card_le_card (typesOf_cons_subset e team)
  have hmul : tb * ((typesOf team).card : Int) ≤
      tb * ((typesOf (e :: team)).card : Int) :=
    mul_le_mul_of_nonneg_left hcard h3
  simp only [team_score, List.map_cons, List.sum_cons]
  linarith

/-- Witness for claim C6: adding B to the subset holding only A. -/
theorem score_monotone_add_witness :
    (∀ x ∈ [entA], 0 ≤ x.total) ∧ (0 ≤ entB.total) ∧ ((0 : Int) ≤ 20) ∧
    team_score [entA] 20 ≤ team_score (entB :: [entA]) 20 :=
  ⟨by decide, by decide, by decide,
    score_monotone_add [entA] entB 20 (by decide) (by decide) (by decide)⟩

/-- Claim C7: the score is a function of the multiset of entities only:
any two orderings of the same collection score equally. -/
theorem score_perm_invariant (t₁ t₂ : List Entity) (tb : Int)
    (h : t₁.Perm t₂) : team_score t₁ tb = team_score t₂ tb := by
  have hsum : (t₁.map Entity.total).sum = (t₂.map Entity.total).sum :=
    (h.map Entity.total).sum_eq
  have h1 : (t₁.map Entity.type1).toFinset = (t₂.map Entity.type1).toFinset :=
    perm_toFinset (h.map Entity.type1)
  have h2 : (t₁.filterMap Entity.type2).toFinset =
      (t₂.filterMap Entity.type2).toFinset :=
    perm_toFinset (h.filterMap Entity.type2)
  simp [team_score, typesOf, hsum, h1, h2]

/-- Witness for claim C7: the two orderings of {A, B}. -/
theorem score_perm_invariant_witness :
    ([entA, entB].Perm [entB, entA]) ∧
    team_score [entA, entB] 20 = team_score [entB, entA] 20 :=
  ⟨by decide, score_perm_invariant [entA, entB] [entB, entA] 20 (by decide)⟩

/-- Claim C8: re-scoring the selected Team reproduces the `best_score`
recorded for the last-appended entity during the final iteration, as
carried by the instrumented loop `greedy_loopTr`; the `poke.py`
implementation returns the same Team whenever it returns one. -/
theorem rescoring_idempotent (pool : List Entity) (k tb : Int)
    (hk : 1 ≤ k) (hp : pool ≠ []) :
    greedy_idxUi pool k tb =
      (greedy_loopTr pool tb k.toNat [] (List.range pool.length) 0).1 ∧
    team_score (greedy_teamUi pool k tb) tb =
      (greedy_loopTr pool tb k.toNat [] (List.range pool.length) 0).2 ∧
    (∀ t, greedy_teamP pool k tb = Except.ok t → t = greedy_teamUi pool k tb) := by
  have hfst := greedy_loopTr_fst pool tb k.toNat [] (List.range pool.length) 0
  refine ⟨hfst.symm, ?_, greedy_teamP_ok_eq pool k tb⟩
  have hscore := greedy_loopTr_score pool tb k.toNat [] (List.range pool.length) 0
    (by simp [rowsOf, team_score, typesOf])
  rw [greedy_teamUi, greedy_idxUi, ← hfst]
  exact hscore

/-- Witness for claim C8 at the concrete scenario with `k = 2`. -/
theorem rescoring_idempotent_witness :
    ((1 : Int) ≤ 2) ∧ poolABC ≠ [] ∧
    (greedy_idxUi poolABC 2 20 =
      (greedy_loopTr poolABC 20 (2 : Int).toNat [] (List.range poolABC.length) 0).1 ∧
     team_score (greedy_teamUi poolABC 2 20) 20 =
      (greedy_loopTr poolABC 20 (2 : Int).toNat [] (List.range poolABC.length) 0).2 ∧
     (∀ t, greedy_teamP poolABC 2 20 = Except.ok t →
        t = greedy_teamUi poolABC 2 20)) :=
  ⟨by decide, by decide, rescoring_idempotent poolABC 2 20 (by decide) (by decide)⟩

/-- Claim C9: with `type_bonus = 0` (pure fitness-sum maximization) the
selector returns exactly the top-`min(k, |pool|)` rows: the chosen index
list has that length, lists valid indices in descending fitness order
with ties broken by ascending dataset index (`fitOrd`), and every chosen
row outranks every unchosen row; `poke.py` returns the same Team
whenever it returns one. -/
theorem zero_bonus_topk (pool : List Entity) (k : Int)
    (h : ∀ e ∈ pool, 0 ≤ e.total) :
    (greedy_idxUi pool k 0).length = min k.toNat pool.length ∧
    (∀ i ∈ greedy_idxUi pool k 0, i < pool.length) ∧
    (greedy_idxUi pool k 0).Pairwise (fitOrd pool) ∧
    (∀ j < pool.length, j ∉ greedy_idxUi pool k 0 →
      ∀ i ∈ greedy_idxUi pool k 0, fitOrd pool i j) ∧
    greedy_teamUi pool k 0 = rowsOf pool (greedy_idxUi pool k 0) ∧
    (∀ t, greedy_teamP pool k 0 = Except.ok t → t = greedy_teamUi pool k 0) := by
  obtain ⟨out, hout, hlen, hmem, hpw, hdom⟩ :=
    greedy_zero_topk pool k.toNat [] (List.range pool.length)
      (List.pairwise_lt_range _)
  have hidx : greedy_idxUi pool k 0 = out := by
    rw [greedy_idxUi, hout]
    rfl
  refine ⟨?_, ?_, ?_, ?_, rfl, greedy_teamP_ok_eq pool k 0⟩
  · rw [hidx, hlen, List.length_range]
  · intro i hi
    rw [hidx] at hi
    exact List.mem_range.mp (hmem i hi)
  · rw [hidx]
    exact hpw
  · intro j hj hjout i hi
    rw [hidx] at hjout hi
    exact hdom j (List.mem_range.mpr hj) hjout i hi

/-- Witness for claim C9 at the concrete scenario: with zero bonus and
`k = 2` the selection is by fitness alone. -/
theorem zero_bonus_topk_witness :
    (∀ e ∈ poolABC, 0 ≤ e.total) ∧
    ((greedy_idxUi poolABC 2 0).length = min (2 : Int).toNat poolABC.length ∧
     (∀ i ∈ greedy_idxUi poolABC 2 0, i < poolABC.length) ∧
     (greedy_idxUi poolABC 2 0).Pairwise (fitOrd poolABC) ∧
     (∀ j < poolABC.length, j ∉ greedy_idxUi poolABC 2 0 →
        ∀ i ∈ greedy_idxUi poolABC 2 0, fitOrd poolABC i j) ∧
     greedy_teamUi poolABC 2 0 = rowsOf poolABC (greedy_idxUi poolABC 2 0) ∧
     (∀ t, greedy_teamP poolABC 2 0 = Except.ok t →
        t = greedy_teamUi poolABC 2 0)) :=
  ⟨by decide, zero_bonus_topk poolABC 2 (by decide)⟩

/-- Claim C10: for `0 ≤ k ≤ |pool|`, the `poke.py` and `poke_ui.py`
greedy selectors return identical Teams (same entities, same order):
`poke.py` succeeds and its Team is exactly the `poke_ui.py` Team. -/
theorem implementations_agree (pool : List Entity) (k tb : Int)
    (h0 : 0 ≤ k) (h1 : k ≤ (pool.length : Int)) :
    greedy_teamP pool k tb = Except.ok (greedy_teamUi pool k tb) := by
  have hb : k.toNat ≤ (List.range pool.length).length := by
    rw [List.length_range]
    omega
  rw [greedy_teamP, greedy_loopP_eq_ok pool tb _ _ _ hb]
  rfl

/-- Witness for claim C10 at the concrete scenario. -/
theorem implementations_agree_witness :
    ((0 : Int) ≤ 2) ∧ ((2 : Int) ≤ (poolABC.length : Int)) ∧
    greedy_teamP poolABC 2 20 = Except.ok (greedy_teamUi poolABC 2 20) :=
  ⟨by decide, by decide,
    implementations_agree poolABC 2 20 (by decide) (by decide)⟩

